import Mathlib

/-!
Verification of the recursive-memory tree of rma_simulator.py.

The development shallowly embeds the two classes of the source file:

* MemoryBlock — a tree node with a value, a name and an
  insertion-ordered children dictionary (Python dict), here a list of
  key/node pairs.  The parent back-reference of the source is not a
  separate field: in a pure tree it is implicit, and the operations that
  read it (get_full_path) are embedded as walks from the root.
* RecursiveMemory — the handle holding the root block; its methods
  split dot-delimited string paths and delegate to the block methods.

Mutating methods of the source become functions returning the new tree
(and the returned Bool where the source returns one).  Python values
stored in the tree are embedded as the inductive type Value; the Python
None object is Value.none, which is also the default of an unset node
and the result of a failed lookup, exactly as in the source.
-/

/-- Python values storable in the tree.  The source stores arbitrary
objects; the claims only need a type with decidable equality containing
None, strings, integers and booleans.  Value.none embeds Python None. -/
inductive Value where
  | none
  | str (s : String)
  | int (n : Int)
  | bool (b : Bool)
  deriving DecidableEq, Repr

/-- A node of the memory tree (class MemoryBlock of the source):
value, name, and the children dictionary in insertion order. -/
inductive MemoryBlock : Type where
  | mk (value : Value) (name : Option String) (children : List (String × MemoryBlock))

def MemoryBlock.value : MemoryBlock → Value
  | .mk v _ _ => v

def MemoryBlock.name : MemoryBlock → Option String
  | .mk _ n _ => n

def MemoryBlock.children : MemoryBlock → List (String × MemoryBlock)
  | .mk _ _ cs => cs

/-! ### Python dict operations on insertion-ordered association lists -/

/-- d[k] lookup: first entry with the key (keys are unique in a dict). -/
def dictLookup {α : Type} : List (String × α) → String → Option α
  | [], _ => Option.none
  | (k, v) :: rest, key => if k = key then some v else dictLookup rest key

/-- The Python `key in d` test. -/
def dictContains {α : Type} (d : List (String × α)) (key : String) : Bool :=
  (dictLookup d key).isSome

/-- Python dict assignment d[k] = v: replaces the value in place if the
key is present, otherwise appends at the end (insertion order). -/
def dictSet {α : Type} : List (String × α) → String → α → List (String × α)
  | [], key, v => [(key, v)]
  | (k, w) :: rest, key, v =>
    if k = key then (k, v) :: rest else (k, w) :: dictSet rest key v

/-- Python `del d[k]`: removes the entry with the key. -/
def dictRemove {α : Type} : List (String × α) → String → List (String × α)
  | [], _ => []
  | (k, w) :: rest, key => if k = key then rest else (k, w) :: dictRemove rest key

/-! ### MemoryBlock methods -/

/-- MemoryBlock.add_child: creates a child block with the given name and
value and enters it into the children dictionary under that name. -/
def MemoryBlock.add_child (t : MemoryBlock) (childName : String) (value : Value) :
    MemoryBlock :=
  match t with
  | .mk v n cs => .mk v n (dictSet cs childName (.mk value (some childName) []))

/-- MemoryBlock.get_path: walks the path segment by segment; None as soon
as a segment is not among the current children. -/
def MemoryBlock.get_path : MemoryBlock → List String → Option MemoryBlock
  | t, [] => some t
  | t, key :: rest =>
    match dictLookup t.children key with
    | some child => child.get_path rest
    | Option.none => Option.none

/-- MemoryBlock.set_value: walks the path, creating a child (value None,
name = the segment) for each missing segment, then assigns the value to
the terminal node. -/
def MemoryBlock.set_value : MemoryBlock → List String → Value → MemoryBlock
  | .mk _ n cs, [], value => .mk value n cs
  | .mk v n cs, key :: rest, value =>
    match dictLookup cs key with
    | some child => .mk v n (dictSet cs key (child.set_value rest value))
    | Option.none =>
        .mk v n (dictSet cs key ((MemoryBlock.mk .none (some key) []).set_value rest value))

/-- MemoryBlock.get_value: the value at the path, or None (Value.none)
when the path does not resolve. -/
def MemoryBlock.get_value (t : MemoryBlock) (path : List String) : Value :=
  match t.get_path path with
  | some node => node.value
  | Option.none => Value.none

/-- MemoryBlock.delete_path: on the empty path returns False; otherwise
resolves the parent path, and if the final key is among the parent's
children removes that entry (with its whole subtree) and returns True,
else returns False.  The source mutates in place; here the Bool is paired
with the resulting tree. -/
def MemoryBlock.delete_path : MemoryBlock → List String → Bool × MemoryBlock
  | t, [] => (false, t)
  | .mk v n cs, [key] =>
    if dictContains cs key then (true, .mk v n (dictRemove cs key))
    else (false, .mk v n cs)
  | .mk v n cs, key :: rest =>
    match dictLookup cs key with
    | some child =>
        match child.delete_path rest with
        | (ok, child2) => (ok, .mk v n (dictSet cs key child2))
    | Option.none => (false, .mk v n cs)

mutual

/-- MemoryBlock._search_recursive: appends the current path when the
node's own value equals the target, then recurses into the children in
insertion order (pre-order traversal). -/
def MemoryBlock.search_recursive : MemoryBlock → Value → List String → List (List String)
  | .mk v _ cs, value, current_path =>
    (if v = value then [current_path] else []) ++ searchChildren cs value current_path

def searchChildren : List (String × MemoryBlock) → Value → List String → List (List String)
  | [], _, _ => []
  | (key, child) :: rest, value, current_path =>
    child.search_recursive value (current_path ++ [key]) ++ searchChildren rest value current_path

end

/-- MemoryBlock.search: all paths of nodes holding the value. -/
def MemoryBlock.search (t : MemoryBlock) (value : Value) : List (List String) :=
  t.search_recursive value []

mutual

/-- MemoryBlock._search_key_recursive: for each child in insertion order,
reports the extended path when the child's key equals the target, and
descends into the child unconditionally. -/
def MemoryBlock.search_key_recursive : MemoryBlock → String → List String → List (List String)
  | .mk _ _ cs, key_name, current_path => searchKeyChildren cs key_name current_path

def searchKeyChildren : List (String × MemoryBlock) → String → List String → List (List String)
  | [], _, _ => []
  | (key, child) :: rest, key_name, current_path =>
    (if key = key_name then [current_path ++ [key]] else [])
      ++ child.search_key_recursive key_name (current_path ++ [key])
      ++ searchKeyChildren rest key_name current_path

end

/-- MemoryBlock.search_key: all paths whose final segment is the key. -/
def MemoryBlock.search_key (t : MemoryBlock) (key_name : String) : List (List String) :=
  t.search_key_recursive key_name []

mutual

/-- MemoryBlock.get_depth: 0 for a leaf, else one more than the maximum
child depth.  Python takes max over the non-empty child iterator; as
depths are naturals, that equals a fold of max started at 0. -/
def MemoryBlock.get_depth : MemoryBlock → Nat
  | .mk _ _ [] => 0
  | .mk _ _ (c :: rest) => 1 + maxDepthChildren (c :: rest)

def maxDepthChildren : List (String × MemoryBlock) → Nat
  | [] => 0
  | (_, c) :: rest => max c.get_depth (maxDepthChildren rest)

end

mutual

/-- MemoryBlock.count_nodes: the node itself plus all descendants. -/
def MemoryBlock.count_nodes : MemoryBlock → Nat
  | .mk _ _ cs => 1 + countChildren cs

def countChildren : List (String × MemoryBlock) → Nat
  | [] => 0
  | (_, c) :: rest => c.count_nodes + countChildren rest

end

/-- The record returned by MemoryBlock.stats. -/
structure Stats where
  total_nodes : Nat
  max_depth : Nat
  direct_children : Nat
  has_value : Bool
  deriving DecidableEq, Repr

/-- MemoryBlock.stats: statistics of the subtree; has_value is the
Python test `self.value is not None`. -/
def MemoryBlock.stats (t : MemoryBlock) : Stats :=
  { total_nodes := t.count_nodes
    max_depth := t.get_depth
    direct_children := t.children.length
    has_value := decide (t.value ≠ Value.none) }

/-- The nodes visited after each step of resolving a path from t (t
itself excluded), in downward order, when every segment resolves.  The
node at the path holds these nodes (reversed, then t) as its chain of
parent references. -/
def MemoryBlock.chain : MemoryBlock → List String → Option (List MemoryBlock)
  | _, [] => some []
  | t, key :: rest =>
    match dictLookup t.children key with
    | some child => (child.chain rest).map (fun l => child :: l)
    | Option.none => Option.none

/-- MemoryBlock.get_full_path of the node reached from root by a
resolvable path: the source walks parent references upward from the
node, inserting each truthy name (a non-None, non-empty string) at the
front until it reaches the node with no parent, i.e. the root — in this
embedding, a filterMap of the names over the downward chain.  The walk
is a total function here: termination at the root is structural, so the
upward walk cannot loop. -/
def MemoryBlock.get_full_path (root : MemoryBlock) (path : List String) : List String :=
  match root.chain path with
  | some nodes =>
      nodes.filterMap (fun node =>
        match node.name with
        | some s => if s = "" then Option.none else some s
        | Option.none => Option.none)
  | Option.none => []

/-! ### The RecursiveMemory handle -/

/-- Python str.split with the single-character separator '.': splitting
the empty string yields one empty segment, and adjacent separators yield
empty segments. -/
def splitDotChars : List Char → List String
  | [] => [""]
  | c :: rest =>
    match splitDotChars rest with
    | s :: ss => if c = '.' then "" :: s :: ss else String.mk (c :: s.data) :: ss
    | [] => [String.mk [c]]

/-- path.split('.') as used by RecursiveMemory for string paths. -/
def splitDot (s : String) : List String := splitDotChars s.data

/-- RecursiveMemory: the handle holding the root block. -/
structure RecursiveMemory where
  root : MemoryBlock

/-- RecursiveMemory.__init__: the root block is created with value
"root" and name "root". -/
def RecursiveMemory.init : RecursiveMemory :=
  { root := .mk (.str "root") (some "root") [] }

/-- RecursiveMemory.set with a pre-split path. -/
def RecursiveMemory.set (m : RecursiveMemory) (path : List String) (value : Value) :
    RecursiveMemory :=
  { root := m.root.set_value path value }

/-- RecursiveMemory.set with a dot-delimited string path. -/
def RecursiveMemory.setS (m : RecursiveMemory) (path : String) (value : Value) :
    RecursiveMemory :=
  m.set (splitDot path) value

/-- RecursiveMemory.get with a pre-split path. -/
def RecursiveMemory.get (m : RecursiveMemory) (path : List String) : Value :=
  m.root.get_value path

/-- RecursiveMemory.get with a dot-delimited string path. -/
def RecursiveMemory.getS (m : RecursiveMemory) (path : String) : Value :=
  m.get (splitDot path)

/-- RecursiveMemory.delete with a pre-split path; the source returns the
Bool, here paired with the updated handle. -/
def RecursiveMemory.delete (m : RecursiveMemory) (path : List String) :
    Bool × RecursiveMemory :=
  match m.root.delete_path path with
  | (ok, root2) => (ok, { root := root2 })

/-- RecursiveMemory.delete with a dot-delimited string path. -/
def RecursiveMemory.deleteS (m : RecursiveMemory) (path : String) :
    Bool × RecursiveMemory :=
  m.delete (splitDot path)

/-- RecursiveMemory.search. -/
def RecursiveMemory.search (m : RecursiveMemory) (value : Value) : List (List String) :=
  m.root.search value

/-- RecursiveMemory.search_key. -/
def RecursiveMemory.search_key (m : RecursiveMemory) (key : String) : List (List String) :=
  m.root.search_key key

/-- RecursiveMemory.stats. -/
def RecursiveMemory.stats (m : RecursiveMemory) : Stats :=
  m.root.stats

/-! ### Basic lemmas about the dictionary operations -/

theorem dictLookup_dictSet_self {α : Type} (d : List (String × α)) (key : String) (x : α) :
    dictLookup (dictSet d key x) key = some x := by
  induction d with
  | nil => simp [dictSet, dictLookup]
  | cons p rest ih =>
    obtain ⟨k, w⟩ := p
    by_cases hk : k = key
    · subst hk
      simp [dictSet, dictLookup]
    · simp [dictSet, dictLookup, hk, ih]

theorem dictSet_lookup_eq {α : Type} (d : List (String × α)) (key : String) (x : α)
    (h : dictLookup d key = some x) : dictSet d key x = d := by
  induction d with
  | nil => simp [dictLookup] at h
  | cons p rest ih =>
    obtain ⟨k, w⟩ := p
    by_cases hk : k = key
    · subst hk
      simp [dictLookup] at h
      simp [dictSet, h]
    · simp [dictLookup, hk] at h
      simp [dictSet, hk, ih h]

/-! ### Unfolding lemmas for the block operations -/

theorem MemoryBlock.get_value_nil (v : Value) (n : Option String)
    (cs : List (String × MemoryBlock)) :
    (MemoryBlock.mk v n cs).get_value [] = v := rfl

theorem MemoryBlock.get_value_cons (v : Value) (n : Option String)
    (cs : List (String × MemoryBlock)) (key : String) (rest : List String) :
    (MemoryBlock.mk v n cs).get_value (key :: rest) =
      match dictLookup cs key with
      | some child => child.get_value rest
      | Option.none => Value.none := by
  cases h : dictLookup cs key with
  | none => simp [MemoryBlock.get_value, MemoryBlock.get_path, MemoryBlock.children, h]
  | some child => simp [MemoryBlock.get_value, MemoryBlock.get_path, MemoryBlock.children, h]

theorem MemoryBlock.get_path_cons (v : Value) (n : Option String)
    (cs : List (String × MemoryBlock)) (key : String) (rest : List String) :
    (MemoryBlock.mk v n cs).get_path (key :: rest) =
      match dictLookup cs key with
      | some child => child.get_path rest
      | Option.none => Option.none := by
  cases h : dictLookup cs key with
  | none => simp [MemoryBlock.get_path, MemoryBlock.children, h]
  | some child => simp [MemoryBlock.get_path, MemoryBlock.children, h]

theorem MemoryBlock.get_path_cons_some (v : Value) (n : Option String)
    (cs : List (String × MemoryBlock)) (key : String) (rest : List String)
    (child : MemoryBlock) (h : dictLookup cs key = some child) :
    (MemoryBlock.mk v n cs).get_path (key :: rest) = child.get_path rest := by
  simp [MemoryBlock.get_path, MemoryBlock.children, h]

theorem MemoryBlock.get_path_cons_none (v : Value) (n : Option String)
    (cs : List (String × MemoryBlock)) (key : String) (rest : List String)
    (h : dictLookup cs key = Option.none) :
    (MemoryBlock.mk v n cs).get_path (key :: rest) = Option.none := by
  simp [MemoryBlock.get_path, MemoryBlock.children, h]

theorem MemoryBlock.get_value_cons_some (v : Value) (n : Option String)
    (cs : List (String × MemoryBlock)) (key : String) (rest : List String)
    (child : MemoryBlock) (h : dictLookup cs key = some child) :
    (MemoryBlock.mk v n cs).get_value (key :: rest) = child.get_value rest := by
  simp [MemoryBlock.get_value, MemoryBlock.get_path_cons_some v n cs key rest child h]

theorem MemoryBlock.get_value_cons_none (v : Value) (n : Option String)
    (cs : List (String × MemoryBlock)) (key : String) (rest : List String)
    (h : dictLookup cs key = Option.none) :
    (MemoryBlock.mk v n cs).get_value (key :: rest) = Value.none := by
  simp [MemoryBlock.get_value, MemoryBlock.get_path_cons_none v n cs key rest h]

/-- Write-then-read at block level: set_value followed by get_value on the
same path yields the written value (for every path, the empty one included). -/
theorem MemoryBlock.set_value_get_value (p : List String) :
    ∀ (t : MemoryBlock) (v : Value), (t.set_value p v).get_value p = v := by
  induction p with
  | nil =>
    intro t v
    cases t with
    | mk w n cs => simp [MemoryBlock.set_value, MemoryBlock.get_value, MemoryBlock.get_path,
        MemoryBlock.value]
  | cons key rest ih =>
    intro t v
    cases t with
    | mk w n cs =>
      cases h : dictLookup cs key with
      | some child =>
        rw [MemoryBlock.set_value, h]
        rw [MemoryBlock.get_value_cons, dictLookup_dictSet_self]
        exact ih child v
      | none =>
        rw [MemoryBlock.set_value, h]
        rw [MemoryBlock.get_value_cons, dictLookup_dictSet_self]
        exact ih _ v

/-- C1: for every non-empty path P (pre-split list of segments, or a
dot-delimited string split by the handle) and every value V, set(P, V)
followed by get(P) on the same tree returns V. -/
theorem c1_set_then_get :
    (∀ (m : RecursiveMemory) (p : List String) (v : Value),
        p ≠ [] → (m.set p v).get p = v) ∧
    (∀ (m : RecursiveMemory) (s : String) (v : Value),
        (m.setS s v).getS s = v) := by
  constructor
  · intro m p v _
    exact MemoryBlock.set_value_get_value p m.root v
  · intro m s v
    exact MemoryBlock.set_value_get_value (splitDot s) m.root v

/-- Witness for C1 at a concrete input: a two-segment list path on the
fresh tree. -/
theorem c1_set_then_get_witness :
    (RecursiveMemory.init.set ["a", "b"] (Value.int 7)).get ["a", "b"] = Value.int 7 :=
  c1_set_then_get.1 RecursiveMemory.init ["a", "b"] (Value.int 7) (by decide)

/-- C2 counterexample: storing the explicit None value at path a makes
get of a return exactly the same result (Value.none) as get of the
never-written path b, even though a is present in the tree and b is not
— the absent result is not distinguishable from a stored None. -/
theorem c2_stored_none_counterexample :
    (RecursiveMemory.init.set ["a"] Value.none).get ["a"] =
      (RecursiveMemory.init.set ["a"] Value.none).get ["b"] ∧
    ((RecursiveMemory.init.set ["a"] Value.none).root.get_path ["a"]).isSome = true ∧
    ((RecursiveMemory.init.set ["a"] Value.none).root.get_path ["b"]).isSome = false :=
  ⟨rfl, rfl, rfl⟩

/-- C2 amended: get conflates absence with a stored None — after storing
the explicit None at any path, get of that path returns Value.none, the
very result get returns for any path that does not resolve. -/
theorem c2_stored_none_amended :
    (∀ (t : MemoryBlock) (p : List String),
        (t.set_value p Value.none).get_value p = Value.none) ∧
    (∀ (t : MemoryBlock) (q : List String),
        t.get_path q = Option.none → t.get_value q = Value.none) := by
  constructor
  · intro t p
    exact MemoryBlock.set_value_get_value p t Value.none
  · intro t q h
    simp [MemoryBlock.get_value, h]

/-- Witness for C2 amended at a concrete input: the never-written path b
of the fresh tree yields Value.none. -/
theorem c2_stored_none_amended_witness :
    RecursiveMemory.init.root.get_value ["b"] = Value.none :=
  c2_stored_none_amended.2 RecursiveMemory.init.root ["b"] rfl

theorem MemoryBlock.delete_path_nil (t : MemoryBlock) :
    t.delete_path [] = (false, t) := by
  cases t with
  | mk v n cs => rfl

theorem MemoryBlock.delete_path_single (v : Value) (n : Option String)
    (cs : List (String × MemoryBlock)) (key : String) :
    (MemoryBlock.mk v n cs).delete_path [key] =
      if dictContains cs key then (true, MemoryBlock.mk v n (dictRemove cs key))
      else (false, MemoryBlock.mk v n cs) := rfl

theorem MemoryBlock.delete_path_cons2 (v : Value) (n : Option String)
    (cs : List (String × MemoryBlock)) (key k2 : String) (r2 : List String) :
    (MemoryBlock.mk v n cs).delete_path (key :: k2 :: r2) =
      match dictLookup cs key with
      | some child =>
          match child.delete_path (k2 :: r2) with
          | (ok, child2) => (ok, MemoryBlock.mk v n (dictSet cs key child2))
      | Option.none => (false, MemoryBlock.mk v n cs) := rfl

/-- delete_path on a path that does not fully resolve (or is empty)
returns False and the very same tree. -/
theorem MemoryBlock.delete_path_missing (p : List String) :
    ∀ t : MemoryBlock, p = [] ∨ t.get_path p = Option.none →
      t.delete_path p = (false, t) := by
  induction p with
  | nil =>
    intro t _
    exact MemoryBlock.delete_path_nil t
  | cons key rest ih =>
    intro t h
    cases t with
    | mk v n cs =>
      rcases h with h | h
      · exact absurd h (by simp)
      rw [MemoryBlock.get_path_cons] at h
      cases rest with
      | nil =>
        cases hl : dictLookup cs key with
        | some child => rw [hl] at h; exact absurd h (by simp [MemoryBlock.get_path])
        | none =>
          have hc : dictContains cs key = false := by
            simp [dictContains, hl]
          simp [MemoryBlock.delete_path_single, hc]
      | cons k2 r2 =>
        cases hl : dictLookup cs key with
        | some child =>
          rw [hl] at h
          simp only [] at h
          have hchild := ih child (Or.inr h)
          rw [MemoryBlock.delete_path_cons2, hl]
          simp [hchild, dictSet_lookup_eq cs key child hl]
        | none =>
          rw [MemoryBlock.delete_path_cons2, hl]

/-- C4: delete on the empty path, or on a path with at least one missing
segment, returns false and returns the tree entirely unchanged; being a
total function of the embedding it never throws. -/
theorem c4_delete_missing :
    ∀ (m : RecursiveMemory) (p : List String),
      p = [] ∨ m.root.get_path p = Option.none →
        m.delete p = (false, m) := by
  intro m p h
  have hroot := MemoryBlock.delete_path_missing p m.root h
  simp [RecursiveMemory.delete, hroot]

/-- Witness for C4 at a concrete input: deleting a never-written path on
the fresh tree. -/
theorem c4_delete_missing_witness :
    RecursiveMemory.init.delete ["does", "not", "exist"] = (false, RecursiveMemory.init) :=
  c4_delete_missing RecursiveMemory.init ["does", "not", "exist"] (Or.inr rfl)

/-! ### Well-formedness: unique keys among siblings (Python dict keys) -/

/-- No key occurs twice in the association list, as holds of every
Python dict. -/
def noDupKeys {α : Type} : List (String × α) → Bool
  | [] => true
  | (k, _) :: rest => !(dictContains rest k) && noDupKeys rest

mutual

/-- Every children dictionary in the tree has pairwise-distinct keys;
trees built by the source's API always satisfy this, since Python dict
keys are unique. -/
def MemoryBlock.wf : MemoryBlock → Bool
  | .mk _ _ cs => noDupKeys cs && wfChildren cs

def wfChildren : List (String × MemoryBlock) → Bool
  | [] => true
  | (_, c) :: rest => c.wf && wfChildren rest

end

theorem dictLookup_dictRemove_of_noDup {α : Type} (d : List (String × α)) (key : String)
    (h : noDupKeys d = true) : dictLookup (dictRemove d key) key = Option.none := by
  induction d with
  | nil => simp [dictRemove, dictLookup]
  | cons p rest ih =>
    obtain ⟨k, w⟩ := p
    rw [noDupKeys] at h
    simp only [Bool.and_eq_true, Bool.not_eq_true'] at h
    obtain ⟨hk, hrest⟩ := h
    by_cases hke : k = key
    · subst hke
      have hrem : dictRemove ((k, w) :: rest) k = rest := by simp [dictRemove]
      rw [hrem]
      cases hlk : dictLookup rest k with
      | none => rfl
      | some x => rw [dictContains, hlk] at hk; simp at hk
    · simp [dictRemove, hke, dictLookup, ih hrest]

theorem wfChildren_lookup (cs : List (String × MemoryBlock)) (key : String)
    (c : MemoryBlock) (hwf : wfChildren cs = true) (h : dictLookup cs key = some c) :
    c.wf = true := by
  induction cs with
  | nil => simp [dictLookup] at h
  | cons p rest ih =>
    obtain ⟨k, w⟩ := p
    rw [wfChildren] at hwf
    simp only [Bool.and_eq_true] at hwf
    by_cases hke : k = key
    · subst hke
      simp [dictLookup] at h
      exact h ▸ hwf.1
    · simp [dictLookup, hke] at h
      exact ih hwf.2 h

theorem MemoryBlock.wf_mk (v : Value) (n : Option String)
    (cs : List (String × MemoryBlock)) :
    (MemoryBlock.mk v n cs).wf = (noDupKeys cs && wfChildren cs) := by
  rw [MemoryBlock.wf]

theorem MemoryBlock.delete_path_single_found (v : Value) (n : Option String)
    (cs : List (String × MemoryBlock)) (key : String)
    (h : dictContains cs key = true) :
    (MemoryBlock.mk v n cs).delete_path [key] =
      (true, MemoryBlock.mk v n (dictRemove cs key)) := by
  rw [MemoryBlock.delete_path_single, h]
  simp

theorem MemoryBlock.delete_path_cons_some (v : Value) (n : Option String)
    (cs : List (String × MemoryBlock)) (key : String) (rest : List String)
    (child : MemoryBlock) (hrest : rest ≠ []) (h : dictLookup cs key = some child) :
    (MemoryBlock.mk v n cs).delete_path (key :: rest) =
      ((child.delete_path rest).1,
        MemoryBlock.mk v n (dictSet cs key (child.delete_path rest).2)) := by
  cases rest with
  | nil => exact absurd rfl hrest
  | cons k2 r2 => rw [MemoryBlock.delete_path_cons2, h]

/-- delete_path on a fully resolving non-empty path ps ++ [k], in a tree
whose children dictionaries have unique keys: returns True, the parent
node at ps no longer contains the key k, and every path extending
ps ++ [k] reads as absent afterwards. -/
theorem MemoryBlock.delete_path_existing (ps : List String) :
    ∀ (t : MemoryBlock) (k : String),
      t.wf = true → (t.get_path (ps ++ [k])).isSome = true →
      (t.delete_path (ps ++ [k])).1 = true ∧
      (∃ parent, (t.delete_path (ps ++ [k])).2.get_path ps = some parent ∧
          dictContains parent.children k = false) ∧
      ∀ q : List String,
        (t.delete_path (ps ++ [k])).2.get_value ((ps ++ [k]) ++ q) = Value.none := by
  induction ps with
  | nil =>
    intro t k hwf hex
    cases t with
    | mk v n cs =>
      simp only [List.nil_append] at hex ⊢
      cases hl : dictLookup cs k with
      | none => rw [MemoryBlock.get_path_cons_none v n cs k [] hl] at hex; simp at hex
      | some c =>
        have hc : dictContains cs k = true := by simp [dictContains, hl]
        rw [MemoryBlock.wf_mk] at hwf
        simp only [Bool.and_eq_true] at hwf
        have hrem : dictLookup (dictRemove cs k) k = Option.none :=
          dictLookup_dictRemove_of_noDup cs k hwf.1
        rw [MemoryBlock.delete_path_single_found v n cs k hc]
        refine ⟨rfl, ⟨MemoryBlock.mk v n (dictRemove cs k), rfl, ?_⟩, ?_⟩
        · simp [dictContains, MemoryBlock.children, hrem]
        · intro q
          rw [List.cons_append, List.nil_append,
            MemoryBlock.get_value_cons_none v n (dictRemove cs k) k q hrem]
  | cons k0 ps' ih =>
    intro t k hwf hex
    cases t with
    | mk v n cs =>
      simp only [List.cons_append] at hex ⊢
      cases hl : dictLookup cs k0 with
      | none =>
        rw [MemoryBlock.get_path_cons_none v n cs k0 (ps' ++ [k]) hl] at hex
        simp at hex
      | some c0 =>
        rw [MemoryBlock.get_path_cons_some v n cs k0 (ps' ++ [k]) c0 hl] at hex
        rw [MemoryBlock.wf_mk] at hwf
        simp only [Bool.and_eq_true] at hwf
        have hc0wf : c0.wf = true := wfChildren_lookup cs k0 c0 hwf.2 hl
        obtain ⟨hfst, ⟨parent, hpar, hcon⟩, hq⟩ := ih c0 k hc0wf hex
        rw [MemoryBlock.delete_path_cons_some v n cs k0 (ps' ++ [k]) c0 (by simp) hl]
        refine ⟨hfst, ⟨parent, ?_, hcon⟩, ?_⟩
        · rw [MemoryBlock.get_path_cons_some v n _ k0 ps' _
            (dictLookup_dictSet_self cs k0 _)]
          exact hpar
        · intro q
          show (MemoryBlock.mk v n
              (dictSet cs k0 (c0.delete_path (ps' ++ [k])).2)).get_value
              (k0 :: (ps' ++ [k] ++ q)) = Value.none
          rw [MemoryBlock.get_value_cons_some v n _ k0 _ _
            (dictLookup_dictSet_self cs k0 _)]
          exact hq q

/-- C3: delete(P) on a non-empty path P = ps ++ [k] all of whose segments
exist (in a tree with unique sibling keys, as every tree built by the
Python API is) returns true, removes the terminal node with its entire
subtree from its parent's children dictionary, and afterwards get of P
and of every descendant path of P returns the absent result. -/
theorem c3_delete_existing :
    ∀ (m : RecursiveMemory) (ps : List String) (k : String),
      m.root.wf = true → (m.root.get_path (ps ++ [k])).isSome = true →
      (m.delete (ps ++ [k])).1 = true ∧
      (∃ parent, ((m.delete (ps ++ [k])).2.root.get_path ps) = some parent ∧
          dictContains parent.children k = false) ∧
      ∀ q : List String,
        (m.delete (ps ++ [k])).2.get ((ps ++ [k]) ++ q) = Value.none := by
  intro m ps k hwf hex
  obtain ⟨hfst, hpar, hq⟩ := MemoryBlock.delete_path_existing ps m.root k hwf hex
  rcases hr : m.root.delete_path (ps ++ [k]) with ⟨ok, root2⟩
  rw [hr] at hfst hpar hq
  refine ⟨?_, ?_, ?_⟩
  · simp [RecursiveMemory.delete, hr, hfst]
  · simpa [RecursiveMemory.delete, hr] using hpar
  · intro q
    simpa [RecursiveMemory.delete, RecursiveMemory.get, hr] using hq q

/-- Witness for C3 at a concrete input: deleting the existing path
a.b (with a child c below it) on a concrete tree. -/
theorem c3_delete_existing_witness :
    ((RecursiveMemory.init.set ["a", "b", "c"] (Value.int 9)).delete (["a"] ++ ["b"])).1 = true ∧
    (∃ parent,
        (((RecursiveMemory.init.set ["a", "b", "c"] (Value.int 9)).delete
            (["a"] ++ ["b"])).2.root.get_path ["a"]) = some parent ∧
        dictContains parent.children "b" = false) ∧
    ∀ q : List String,
      ((RecursiveMemory.init.set ["a", "b", "c"] (Value.int 9)).delete
          (["a"] ++ ["b"])).2.get ((["a"] ++ ["b"]) ++ q) = Value.none :=
  c3_delete_existing (RecursiveMemory.init.set ["a", "b", "c"] (Value.int 9))
    ["a"] "b" (by decide) (by decide)

/-- C6 counterexample: on a freshly constructed RecursiveMemory, on which
no operation has been performed, stats reports has_value as true, not
false — __init__ creates the root block with value "root". -/
theorem c6_fresh_root_counterexample :
    RecursiveMemory.init.stats.has_value = true := by decide

/-- C6 amended: the has_value field of stats does reflect whether the
root block itself carries a value (it is false exactly when the value is
None), but on a freshly constructed tree it is true, because __init__
initialises the root with the value "root". -/
theorem c6_has_value_reflects_root :
    (∀ t : MemoryBlock, t.stats.has_value = false ↔ t.value = Value.none) ∧
    RecursiveMemory.init.root.value = Value.str "root" ∧
    RecursiveMemory.init.stats.has_value = true := by
  refine ⟨?_, rfl, by decide⟩
  intro t
  rw [MemoryBlock.stats]
  by_cases h : t.value = Value.none <;> simp [h]

/-- Every block counts itself: count_nodes is always at least 1. -/
theorem MemoryBlock.one_le_count_nodes (t : MemoryBlock) : 1 ≤ t.count_nodes := by
  cases t with
  | mk v n cs =>
    rw [MemoryBlock.count_nodes]
    omega

/-- One call of the public API, as a datum.  The read-only calls (get,
search, search_key, stats, export/to_dict, display) perform no
assignment in the source, so applying them leaves the handle as it is. -/
inductive Op where
  | opSet (path : List String) (value : Value)
  | opSetS (path : String) (value : Value)
  | opDelete (path : List String)
  | opDeleteS (path : String)
  | opGet (path : List String)
  | opGetS (path : String)
  | opSearch (value : Value)
  | opSearchKey (key : String)
  | opStats
  | opExport

/-- The state of the handle after one API call. -/
def RecursiveMemory.applyOp (m : RecursiveMemory) : Op → RecursiveMemory
  | .opSet p v => m.set p v
  | .opSetS s v => m.setS s v
  | .opDelete p => (m.delete p).2
  | .opDeleteS s => (m.deleteS s).2
  | .opGet _ => m
  | .opGetS _ => m
  | .opSearch _ => m
  | .opSearchKey _ => m
  | .opStats => m
  | .opExport => m

/-- The state of the handle after a sequence of API calls. -/
def RecursiveMemory.run (m : RecursiveMemory) : List Op → RecursiveMemory
  | [] => m
  | op :: rest => (m.applyOp op).run rest

/-- C9: the root is never removed.  After every sequence of set, get,
delete, search, search_key, stats and export calls starting from the
freshly constructed handle, the tree still has its root (the total node
count stays at least 1), and no single delete call can remove the root
from the handle (the handle returned by delete again holds a root whose
count is at least 1). -/
theorem c9_root_never_removed :
    (∀ ops : List Op, 1 ≤ (RecursiveMemory.init.run ops).root.count_nodes) ∧
    (∀ (m : RecursiveMemory) (p : List String),
        1 ≤ ((m.delete p).2.root.count_nodes)) :=
  ⟨fun _ => MemoryBlock.one_le_count_nodes _,
   fun _ _ => MemoryBlock.one_le_count_nodes _⟩

/-- C10: set with the single string path "" is neither rejected nor a
no-op: the string splits into the one-element list [""], a child of the
root with name "" is created holding the value, get "" then returns that
value and delete "" returns true. -/
theorem c10_empty_string_path (v : Value) :
    splitDot "" = [""] ∧
    dictLookup (RecursiveMemory.init.setS "" v).root.children "" =
      some (MemoryBlock.mk v (some "") []) ∧
    (RecursiveMemory.init.setS "" v).getS "" = v ∧
    ((RecursiveMemory.init.setS "" v).deleteS "").1 = true :=
  ⟨rfl, rfl, rfl, rfl⟩

/-- C8: for the node reached via set of the dot string x.y.z, the
reconstruction of its full path — the upward walk over parent references
collecting segment names, embedded here as get_full_path from the root —
yields exactly x, y, z.  The walk is a total structural recursion in this
embedding, so it reaches the root without looping. -/
theorem c8_full_path_reconstruction (v : Value) :
    (RecursiveMemory.init.setS "x.y.z" v).root.get_full_path ["x", "y", "z"] =
      ["x", "y", "z"] := rfl

/-! ### Pre-order enumeration of the tree (the order the spec describes) -/

mutual

/-- Spec-side description of the traversal order: the list of
(path, stored value) pairs of every node of the subtree, the node itself
first, then the children in insertion order, recursively (pre-order
depth-first). -/
def MemoryBlock.preorder : MemoryBlock → List String → List (List String × Value)
  | .mk v _ cs, cur => (cur, v) :: preorderChildren cs cur

def preorderChildren :
    List (String × MemoryBlock) → List String → List (List String × Value)
  | [], _ => []
  | (k, c) :: rest, cur => c.preorder (cur ++ [k]) ++ preorderChildren rest cur

end

/-- All (path, stored value) pairs of the tree in pre-order, the root
carrying the empty path. -/
def MemoryBlock.preorderNodes (t : MemoryBlock) : List (List String × Value) :=
  t.preorder []

/-- All node paths of the tree in pre-order. -/
def MemoryBlock.preorderPaths (t : MemoryBlock) : List (List String) :=
  (t.preorder []).map Prod.fst

theorem MemoryBlock.sizeOf_child_lt {v : Value} {n : Option String}
    {cs : List (String × MemoryBlock)} {p : String × MemoryBlock} (h : p ∈ cs) :
    sizeOf p.2 < sizeOf (MemoryBlock.mk v n cs) := by
  have h1 := List.sizeOf_lt_of_mem h
  have h2 : sizeOf p = 1 + sizeOf p.1 + sizeOf p.2 := by cases p; simp
  simp only [MemoryBlock.mk.sizeOf_spec]
  omega

/-- Induction over the tree: to prove P everywhere it is enough to prove
it for a node from the hypothesis that it holds for all its children. -/
def MemoryBlock.inductionOn (P : MemoryBlock → Prop)
    (h : ∀ v n cs, (∀ p ∈ cs, P p.2) → P (.mk v n cs)) :
    ∀ t : MemoryBlock, P t
  | .mk v n cs => h v n cs (fun p _hp => MemoryBlock.inductionOn P h p.2)
termination_by t => sizeOf t
decreasing_by exact MemoryBlock.sizeOf_child_lt _hp

theorem searchChildren_eq (value : Value) (cs : List (String × MemoryBlock))
    (hmem : ∀ p ∈ cs, ∀ (v : Value) (cur : List String),
        p.2.search_recursive v cur =
          ((p.2.preorder cur).filter (fun pv => pv.2 == v)).map Prod.fst) :
    ∀ cur : List String,
      searchChildren cs value cur =
        ((preorderChildren cs cur).filter (fun pv => pv.2 == value)).map Prod.fst := by
  induction cs with
  | nil => intro cur; rfl
  | cons p rest ih =>
    intro cur
    obtain ⟨k, c⟩ := p
    rw [searchChildren, preorderChildren, List.filter_append, List.map_append]
    congr 1
    · exact hmem (k, c) (by simp) value (cur ++ [k])
    · exact ih (fun q hq => hmem q (by simp [hq])) cur

/-- The source's recursive search enumerates exactly the pre-order
(path, value) pairs whose value equals the target, path-projected. -/
theorem MemoryBlock.search_recursive_eq (t : MemoryBlock) :
    ∀ (value : Value) (cur : List String),
      t.search_recursive value cur =
        ((t.preorder cur).filter (fun pv => pv.2 == value)).map Prod.fst := by
  refine MemoryBlock.inductionOn
    (fun t => ∀ (value : Value) (cur : List String),
      t.search_recursive value cur =
        ((t.preorder cur).filter (fun pv => pv.2 == value)).map Prod.fst) ?_ t
  intro v n cs ih value cur
  have hch := searchChildren_eq value cs ih cur
  rw [MemoryBlock.search_recursive, MemoryBlock.preorder, List.filter_cons]
  by_cases hv : v = value
  · simp [hv, hch]
  · simp [hv, hch]

/-- C5 counterexample to the count clause: after the single call
set [a, b] 1 on the fresh tree — no set call ever wrote the value None —
search None nevertheless returns one path, the auto-created intermediate
node a (whose value is None); the claim predicts the empty sequence. -/
theorem c5_search_count_counterexample :
    (RecursiveMemory.init.set ["a", "b"] (Value.int 1)).search Value.none = [["a"]] ∧
    (RecursiveMemory.init.set ["a", "b"] (Value.int 1)).search Value.none ≠ [] :=
  ⟨rfl, by decide⟩

/-- C5 amended: search V returns exactly the paths of the nodes whose
stored value equals V, in pre-order depth-first order with children in
insertion order, and hence the empty sequence when there is no match;
the count is the number of such nodes, which can exceed the number of
set calls that wrote V, because the root is constructed holding the
value "root" and auto-created intermediate nodes hold None. -/
theorem c5_search_preorder (m : RecursiveMemory) (value : Value) :
    m.search value =
      ((m.root.preorderNodes).filter (fun pv => pv.2 == value)).map Prod.fst := by
  rw [RecursiveMemory.search, MemoryBlock.search, MemoryBlock.preorderNodes]
  exact MemoryBlock.search_recursive_eq m.root value []

theorem searchKeyChildren_eq (key_name : String) (cs : List (String × MemoryBlock))
    (hmem : ∀ p ∈ cs, ∀ cur : List String,
        p.2.search_key_recursive key_name cur =
          ((preorderChildren p.2.children cur).map Prod.fst).filter
            (fun q => q.getLast? == some key_name)) :
    ∀ cur : List String,
      searchKeyChildren cs key_name cur =
        ((preorderChildren cs cur).map Prod.fst).filter
          (fun q => q.getLast? == some key_name) := by
  induction cs with
  | nil => intro cur; rfl
  | cons p rest ih =>
    intro cur
    obtain ⟨k, c⟩ := p
    cases c with
    | mk cv cn ccs =>
      rw [searchKeyChildren, preorderChildren, List.map_append, List.filter_append]
      rw [MemoryBlock.preorder, List.map_cons, List.filter_cons]
      have hlast : ((cur ++ [k]).getLast? == some key_name) = (k == key_name) := by
        rw [List.getLast?_concat]
        by_cases hk : k = key_name <;> simp [hk]
      have hin := hmem (k, MemoryBlock.mk cv cn ccs) (by simp) (cur ++ [k])
      rw [MemoryBlock.search_key_recursive] at hin
      rw [MemoryBlock.children] at hin
      have hrest := ih (fun q hq => hmem q (by simp [hq]))
      by_cases hk : k = key_name
      · subst hk
        have hcond : ((cur ++ [k]).getLast? == some k) = true := by
          rw [List.getLast?_concat]; simp
        rw [MemoryBlock.search_key_recursive, hin, hrest cur, hcond]
        simp
      · have hcond : ((cur ++ [k]).getLast? == some key_name) = false := by
          rw [List.getLast?_concat]; simp [hk]
        rw [MemoryBlock.search_key_recursive, hin, hrest cur, hcond]
        simp [hk]

/-- The source's recursive key search reports exactly the pre-order
paths of the strict descendants whose final segment is the key. -/
theorem MemoryBlock.search_key_recursive_eq (key_name : String) (t : MemoryBlock) :
    ∀ cur : List String,
      t.search_key_recursive key_name cur =
        ((preorderChildren t.children cur).map Prod.fst).filter
          (fun q => q.getLast? == some key_name) := by
  refine MemoryBlock.inductionOn
    (fun t => ∀ cur : List String,
      t.search_key_recursive key_name cur =
        ((preorderChildren t.children cur).map Prod.fst).filter
          (fun q => q.getLast? == some key_name)) ?_ t
  intro v n cs ih cur
  rw [MemoryBlock.search_key_recursive, MemoryBlock.children]
  exact searchKeyChildren_eq key_name cs ih cur

/-- C7 counterexample: in the tree built by set [a, x] 1, the path
[a, x] exists and contains the segment a, yet search_key a returns only
[[a]] — a path is reported only when its final segment matches, not when
any segment along it does. -/
theorem c7_interior_segment_counterexample :
    (RecursiveMemory.init.set ["a", "x"] (Value.int 1)).search_key "a" = [["a"]] ∧
    ((RecursiveMemory.init.set ["a", "x"] (Value.int 1)).root.get_path
        ["a", "x"]).isSome = true ∧
    "a" ∈ (["a", "x"] : List String) ∧
    ["a", "x"] ∉ ([["a"]] : List (List String)) :=
  ⟨rfl, rfl, by decide, by decide⟩

/-- C7 amended: search_key S returns exactly the paths of the tree whose
final segment equals S, in pre-order depth-first order with children in
insertion order; the traversal continues descending past a match, so
deeper nodes named S along the same branch are reported independently. -/
theorem c7_search_key_last_segment (m : RecursiveMemory) (key : String) :
    m.search_key key =
      (m.root.preorderPaths).filter (fun q => q.getLast? == some key) := by
  rcases hm : m.root with ⟨v, n, cs⟩
  rw [RecursiveMemory.search_key, MemoryBlock.search_key,
    MemoryBlock.preorderPaths, hm, MemoryBlock.search_key_recursive,
    MemoryBlock.preorder, List.map_cons, List.filter_cons]
  have h0 : (([] : List String).getLast? == some key) = false := by simp
  rw [h0, if_neg (by simp)]
  have h1 := MemoryBlock.search_key_recursive_eq key (MemoryBlock.mk v n cs) []
  rw [MemoryBlock.search_key_recursive, MemoryBlock.children] at h1
  exact h1

/-! ### Every tree reachable through the API has unique sibling keys -/

theorem dictContains_false_iff {α : Type} (d : List (String × α)) (key : String) :
    dictContains d key = false ↔ dictLookup d key = Option.none := by
  rw [dictContains]
  cases dictLookup d key <;> simp

theorem dictLookup_dictSet_ne {α : Type} (d : List (String × α)) (key k : String)
    (x : α) (h : k ≠ key) : dictLookup (dictSet d key x) k = dictLookup d k := by
  induction d with
  | nil =>
    simp only [dictSet, dictLookup]
    rw [if_neg (fun hh => h hh.symm)]
  | cons p rest ih =>
    obtain ⟨k0, w⟩ := p
    by_cases hk : k0 = key
    · subst hk
      have hne : ¬k0 = k := fun hh => h hh.symm
      simp [dictSet, dictLookup, hne]
    · simp [dictSet, hk, dictLookup, ih]

theorem noDupKeys_dictSet {α : Type} (d : List (String × α)) (key : String) (x : α)
    (h : noDupKeys d = true) : noDupKeys (dictSet d key x) = true := by
  induction d with
  | nil => simp [dictSet, noDupKeys, dictContains, dictLookup]
  | cons p rest ih =>
    obtain ⟨k0, w⟩ := p
    rw [noDupKeys] at h
    simp only [Bool.and_eq_true, Bool.not_eq_true'] at h
    by_cases hk : k0 = key
    · subst hk
      simp [dictSet, noDupKeys, dictContains, h.2,
        (dictContains_false_iff rest k0).mp h.1]
    · rw [dictSet, if_neg hk, noDupKeys]
      have hcon : dictContains (dictSet rest key x) k0 = false := by
        rw [dictContains, dictLookup_dictSet_ne rest key k0 x hk]
        exact h.1
      simp [hcon, ih h.2]

theorem dictContains_dictRemove {α : Type} (d : List (String × α)) (key k : String)
    (h : dictContains (dictRemove d key) k = true) : dictContains d k = true := by
  induction d with
  | nil => simp [dictRemove] at h; exact h
  | cons p rest ih =>
    obtain ⟨k0, w⟩ := p
    by_cases hk : k0 = key
    · subst hk
      rw [dictRemove, if_pos rfl] at h
      by_cases hkk : k0 = k
      · simp [dictContains, dictLookup, hkk]
      · simp [dictContains, dictLookup, hkk]
        rw [dictContains] at h
        simpa using h
    · rw [dictRemove, if_neg hk] at h
      by_cases hkk : k0 = k
      · simp [dictContains, dictLookup, hkk]
      · rw [dictContains, dictLookup, if_neg hkk] at h ⊢
        exact ih h

theorem noDupKeys_dictRemove {α : Type} (d : List (String × α)) (key : String)
    (h : noDupKeys d = true) : noDupKeys (dictRemove d key) = true := by
  induction d with
  | nil => simp [dictRemove, noDupKeys]
  | cons p rest ih =>
    obtain ⟨k0, w⟩ := p
    rw [noDupKeys] at h
    simp only [Bool.and_eq_true, Bool.not_eq_true'] at h
    by_cases hk : k0 = key
    · subst hk
      rw [dictRemove, if_pos rfl]
      exact h.2
    · rw [dictRemove, if_neg hk, noDupKeys]
      have hcon : dictContains (dictRemove rest key) k0 = false := by
        cases hc : dictContains (dictRemove rest key) k0 with
        | false => rfl
        | true => rw [dictContains_dictRemove rest key k0 hc] at h; simp at h
      simp [hcon, ih h.2]

theorem wfChildren_dictSet (cs : List (String × MemoryBlock)) (key : String)
    (x : MemoryBlock) (hcs : wfChildren cs = true) (hx : x.wf = true) :
    wfChildren (dictSet cs key x) = true := by
  induction cs with
  | nil => simp [dictSet, wfChildren, hx]
  | cons p rest ih =>
    obtain ⟨k0, c⟩ := p
    rw [wfChildren] at hcs
    simp only [Bool.and_eq_true] at hcs
    by_cases hk : k0 = key
    · subst hk
      rw [dictSet, if_pos rfl, wfChildren]
      simp [hx, hcs.2]
    · rw [dictSet, if_neg hk, wfChildren]
      simp [hcs.1, ih hcs.2]

theorem wfChildren_dictRemove (cs : List (String × MemoryBlock)) (key : String)
    (hcs : wfChildren cs = true) : wfChildren (dictRemove cs key) = true := by
  induction cs with
  | nil => simp [dictRemove, wfChildren]
  | cons p rest ih =>
    obtain ⟨k0, c⟩ := p
    rw [wfChildren] at hcs
    simp only [Bool.and_eq_true] at hcs
    by_cases hk : k0 = key
    · subst hk
      rw [dictRemove, if_pos rfl]
      exact hcs.2
    · rw [dictRemove, if_neg hk, wfChildren]
      simp [hcs.1, ih hcs.2]

/-- set_value keeps every children dictionary duplicate-free. -/
theorem MemoryBlock.wf_set_value (p : List String) :
    ∀ (t : MemoryBlock) (v : Value), t.wf = true → (t.set_value p v).wf = true := by
  induction p with
  | nil =>
    intro t v h
    cases t with
    | mk w n cs =>
      rw [MemoryBlock.set_value, MemoryBlock.wf_mk]
      rw [MemoryBlock.wf_mk] at h
      exact h
  | cons key rest ih =>
    intro t v h
    cases t with
    | mk w n cs =>
      rw [MemoryBlock.wf_mk] at h
      simp only [Bool.and_eq_true] at h
      cases hl : dictLookup cs key with
      | some child =>
        rw [MemoryBlock.set_value, hl, MemoryBlock.wf_mk]
        have hchild : child.wf = true := wfChildren_lookup cs key child h.2 hl
        simp [noDupKeys_dictSet cs key _ h.1,
          wfChildren_dictSet cs key _ h.2 (ih child v hchild)]
      | none =>
        rw [MemoryBlock.set_value, hl, MemoryBlock.wf_mk]
        have hfresh : (MemoryBlock.mk Value.none (some key) []).wf = true := by
          rw [MemoryBlock.wf_mk]; rfl
        simp [noDupKeys_dictSet cs key _ h.1,
          wfChildren_dictSet cs key _ h.2 (ih _ v hfresh)]

/-- delete_path keeps every children dictionary duplicate-free. -/
theorem MemoryBlock.wf_delete_path (p : List String) :
    ∀ t : MemoryBlock, t.wf = true → (t.delete_path p).2.wf = true := by
  induction p with
  | nil =>
    intro t h
    rw [MemoryBlock.delete_path_nil]
    exact h
  | cons key rest ih =>
    intro t h
    cases t with
    | mk v n cs =>
      rw [MemoryBlock.wf_mk] at h
      simp only [Bool.and_eq_true] at h
      cases rest with
      | nil =>
        cases hc : dictContains cs key with
        | true =>
          rw [MemoryBlock.delete_path_single_found v n cs key hc, MemoryBlock.wf_mk]
          simp [noDupKeys_dictRemove cs key h.1, wfChildren_dictRemove cs key h.2]
        | false =>
          rw [MemoryBlock.delete_path_single, hc]
          simp only [Bool.false_eq_true, if_false]
          rw [MemoryBlock.wf_mk]
          simp [h.1, h.2]
      | cons k2 r2 =>
        cases hl : dictLookup cs key with
        | some child =>
          rw [MemoryBlock.delete_path_cons_some v n cs key (k2 :: r2) child (by simp) hl]
          rw [MemoryBlock.wf_mk]
          have hchild : child.wf = true := wfChildren_lookup cs key child h.2 hl
          simp [noDupKeys_dictSet cs key _ h.1,
            wfChildren_dictSet cs key _ h.2 (ih child hchild)]
        | none =>
          rw [MemoryBlock.delete_path_cons2, hl, MemoryBlock.wf_mk]
          simp [h.1, h.2]

/-- Every handle reachable from the fresh one through API calls has a
root satisfying wf: its children dictionaries are genuine Python dicts. -/
theorem RecursiveMemory.wf_run :
    ∀ (ops : List Op) (m : RecursiveMemory), m.root.wf = true →
      (m.run ops).root.wf = true := by
  intro ops
  induction ops with
  | nil => intro m h; exact h
  | cons op rest ih =>
    intro m h
    rw [RecursiveMemory.run]
    refine ih (m.applyOp op) ?_
    cases op with
    | opSet p v => exact MemoryBlock.wf_set_value p m.root v h
    | opSetS s v => exact MemoryBlock.wf_set_value (splitDot s) m.root v h
    | opDelete p => exact MemoryBlock.wf_delete_path p m.root h
    | opDeleteS s => exact MemoryBlock.wf_delete_path (splitDot s) m.root h
    | opGet p => exact h
    | opGetS s => exact h
    | opSearch v => exact h
    | opSearchKey k => exact h
    | opStats => exact h
    | opExport => exact h
